import Mathlib

/-!
Verification development for the pyDVL Monte-Carlo Shapley engine
(`src/valuation/shapley/montecarlo.py`) and the influence-function
inversion selector (`src/pydvl/influence/inversion.py`).

Floating-point numbers are modelled as exact rationals; NaN-propagation
(which drives control flow in the evaluator) is modelled explicitly by
the type `FP` below.
-/

namespace PyDVL

/-- A float value: either NaN or an exact rational.  NaN propagates through
arithmetic and makes every comparison false, as in IEEE 754. -/
inductive FP : Type
  | nan : FP
  | val : ℚ → FP
deriving DecidableEq, Repr

namespace FP

def add : FP → FP → FP
  | val a, val b => val (a + b)
  | _, _ => nan

def sub : FP → FP → FP
  | val a, val b => val (a - b)
  | _, _ => nan

/-- Absolute value, NaN-propagating. -/
def fabs : FP → FP
  | val a => val |a|
  | nan => nan

/-- Strict comparison on floats: any comparison involving NaN is false. -/
def flt : FP → FP → Bool
  | val a, val b => decide (a < b)
  | _, _ => false

def sum : List FP → FP := List.foldr add (val 0)

def divNat : FP → ℕ → FP
  | val a, k => val (a / (k : ℚ))
  | nan, _ => nan

/-- The numpy mean of a slice: NaN if the slice is empty or contains a NaN. -/
def mean (l : List FP) : FP :=
  if l.isEmpty then nan else (sum l).divNat l.length

/-- Read a non-NaN float back as a rational (used only on NaN-free data). -/
def toRat : FP → ℚ
  | val a => a
  | nan => 0

end FP

/-- Recorded score: `np.nan` on a fit/score exception, the score otherwise. -/
def toFP : Option ℚ → FP
  | some v => FP.val v
  | none => FP.nan

/-- The evaluation context of `ShapleyWorker._run`:
* `u prefixIdxs` models `model.fit(x_train[prefixIdxs]); model.score(x_test)`;
  `none` models an exception raised by fit/score;
* `conv j` is the value of the shared `converged.value` read at loop step `j`
  (the orchestrator may rewrite it concurrently, hence a function of the step);
* the remaining fields are the scalar parameters of the worker. -/
structure EvalEnv where
  u : List ℕ → Option ℚ
  global_score : ℚ
  score_tolerance : ℚ
  min_samples : ℕ
  num_samples : ℕ
  conv : ℕ → ℕ

/-- The slice mean `scores[max(j - min_samples, 0):j].mean()` — the moving mean of the last
`min_samples` recorded scores before position `j`. -/
def windowMean (min_samples : ℕ) (scores : List FP) (j : ℕ) : FP :=
  FP.mean ((scores.take j).drop (j - min_samples))

/-- The intra-permutation plateau test
`abs(global_score - mean_last_score) < score_tolerance` at position `j`
(read off a scores list; it only inspects positions `< j`). -/
def fires (e : EvalEnv) (scores : List FP) (j : ℕ) : Bool :=
  FP.flt (FP.fabs (FP.sub (FP.val e.global_score) (windowMean e.min_samples scores j)))
    (FP.val e.score_tolerance)

/-- The loop of `ShapleyWorker._run` over the remaining (1-indexed) positions.
State: the scores array and `early_stop`.  Mirrors the source:
```
for j, index in enumerate(permutation, start=1):
    if self.converged.value >= self.num_samples: break
    mean_last_score = scores[max(j - self.min_samples, 0):j].mean()
    if abs(self.global_score - mean_last_score) < self.score_tolerance:
        if early_stop is None: early_stop = j
        scores[j] = scores[j - 1]
    else:
        try: fit(permutation[:j + 1]); scores[j] = score(...)
        except: scores[j] = np.nan
```
-/
def evalSteps (e : EvalEnv) (perm : List ℕ) :
    List ℕ → List FP × Option ℕ → List FP × Option ℕ
  | [], st => st
  | j :: rest, (scores, early) =>
    if e.num_samples ≤ e.conv j then (scores, early)
    else if fires e scores j then
      evalSteps e perm rest
        (scores.set j (scores.getD (j - 1) (FP.val 0)),
         match early with
         | none => some j
         | some k => some k)
    else
      evalSteps e perm rest
        (scores.set j (toFP (e.u (perm.take (j + 1)))), early)

/-- The body of `ShapleyWorker._run`: `scores = np.zeros(n + 1)`, `early_stop = None`,
then the loop over positions `1..n`. -/
def runEval (e : EvalEnv) (perm : List ℕ) : List FP × Option ℕ :=
  evalSteps e perm (List.range' 1 perm.length)
    (List.replicate (perm.length + 1) (FP.val 0), none)

/-- The loop steps actually executed: the loop breaks at the first position
whose read of the shared signal satisfies `converged.value >= num_samples`. -/
def executedSteps (e : EvalEnv) (n : ℕ) : List ℕ :=
  (List.range' 1 n).takeWhile (fun j => decide (e.conv j < e.num_samples))

/-! ### Generic list lemmas -/

theorem getD_set_ne (l : List α) {i j : ℕ} (h : j ≠ i) (a d : α) :
    (l.set j a).getD i d = l.getD i d := by
  simp [List.getD_eq_getElem?_getD, List.getElem?_set_ne h]

theorem getD_set_self (l : List α) {j : ℕ} (hj : j < l.length) (a d : α) :
    (l.set j a).getD j d = a := by
  simp [List.getD_eq_getElem?_getD, List.getElem?_set, hj]

theorem take_set_of_le (l : List α) {m q : ℕ} (h : q ≤ m) (a : α) :
    (l.set m a).take q = l.take q := by
  apply List.ext_getElem?
  intro i
  by_cases hi : i < q
  · have hmi : m ≠ i := fun hc => absurd (hc ▸ h) (by omega)
    simp [List.getElem?_take, hi, List.getElem?_set_ne hmi]
  · simp [List.getElem?_take, hi]

/-! ### Invariants of the evaluator loop -/

theorem evalSteps_length (e : EvalEnv) (perm : List ℕ) (ps : List ℕ) :
    ∀ (s : List FP) (eo : Option ℕ),
      ((evalSteps e perm ps (s, eo)).1).length = s.length := by
  induction ps with
  | nil => intro s eo; rfl
  | cons j rest ih =>
    intro s eo
    show ((if e.num_samples ≤ e.conv j then _ else _ : List FP × Option ℕ)).1.length = _
    split
    · rfl
    · split
      · rw [ih]; exact List.length_set ..
      · rw [ih]; exact List.length_set ..

/-- Positions not in the step list are never written. -/
theorem evalSteps_getD_not_mem (e : EvalEnv) (perm : List ℕ) (ps : List ℕ) :
    ∀ (s : List FP) (eo : Option ℕ) (i : ℕ) (d : FP), (∀ m ∈ ps, m ≠ i) →
      ((evalSteps e perm ps (s, eo)).1).getD i d = s.getD i d := by
  induction ps with
  | nil => intro s eo i d _; rfl
  | cons j rest ih =>
    intro s eo i d hmem
    have hj : j ≠ i := hmem j (List.mem_cons_self j rest)
    have hrest : ∀ m ∈ rest, m ≠ i := fun m hm => hmem m (List.mem_cons_of_mem j hm)
    show ((if e.num_samples ≤ e.conv j then _ else _ : List FP × Option ℕ)).1.getD i d = _
    split
    · rfl
    · split
      · rw [ih _ _ _ _ hrest, getD_set_ne _ hj]
      · rw [ih _ _ _ _ hrest, getD_set_ne _ hj]

/-- The prefix strictly below every step position is untouched. -/
theorem evalSteps_take (e : EvalEnv) (perm : List ℕ) (ps : List ℕ) :
    ∀ (s : List FP) (eo : Option ℕ) (q : ℕ), (∀ m ∈ ps, q ≤ m) →
      ((evalSteps e perm ps (s, eo)).1).take q = s.take q := by
  induction ps with
  | nil => intro s eo q _; rfl
  | cons j rest ih =>
    intro s eo q hmem
    have hj : q ≤ j := hmem j (List.mem_cons_self j rest)
    have hrest : ∀ m ∈ rest, q ≤ m := fun m hm => hmem m (List.mem_cons_of_mem j hm)
    show ((if e.num_samples ≤ e.conv j then _ else _ : List FP × Option ℕ)).1.take q = _
    split
    · rfl
    · split
      · rw [ih _ _ _ hrest, take_set_of_le _ hj]
      · rw [ih _ _ _ hrest, take_set_of_le _ hj]

/-- The plateau test only reads the scores strictly before its position. -/
theorem fires_congr (e : EvalEnv) {s t : List FP} {j : ℕ}
    (h : s.take j = t.take j) : fires e s j = fires e t j := by
  unfold fires windowMean
  rw [h]

/-- Characterization of the trajectory entries written by a break-free run
of the loop over positions `j, j+1, ..., j+k-1`. -/
theorem evalSteps_char (e : EvalEnv) (perm : List ℕ) (k : ℕ) :
    ∀ (j : ℕ) (s : List FP) (eo : Option ℕ),
      1 ≤ j → j + k ≤ s.length →
      (∀ i ∈ List.range' j k, e.conv i < e.num_samples) →
      ∀ i ∈ List.range' j k,
        ((evalSteps e perm (List.range' j k) (s, eo)).1).getD i (FP.val 0) =
          if fires e ((evalSteps e perm (List.range' j k) (s, eo)).1) i
          then ((evalSteps e perm (List.range' j k) (s, eo)).1).getD (i - 1) (FP.val 0)
          else toFP (e.u (perm.take (i + 1))) := by
  induction k with
  | zero => intro j s eo _ _ _ i hi; simp at hi
  | succ k ih =>
    intro j s eo hj hlen hnb i hi
    have hjmem : j ∈ List.range' j (k + 1) := by
      rw [List.mem_range'_1]; omega
    have hguard : ¬ e.num_samples ≤ e.conv j := by
      have := hnb j hjmem
      omega
    have hrest : ∀ m ∈ List.range' (j + 1) k, j ≤ m := by
      intro m hm
      rw [List.mem_range'_1] at hm
      omega
    have hresti : ∀ m ∈ List.range' (j + 1) k, m ≠ j := by
      intro m hm
      rw [List.mem_range'_1] at hm
      omega
    have hnb' : ∀ m ∈ List.range' (j + 1) k, e.conv m < e.num_samples := by
      intro m hm
      apply hnb
      rw [List.mem_range'_1] at hm ⊢
      omega
    rw [List.range'_succ] at hi ⊢
    show _ = if fires e
        ((evalSteps e perm (j :: List.range' (j + 1) k) (s, eo)).1) i then _ else _
    have hstep : evalSteps e perm (j :: List.range' (j + 1) k) (s, eo) =
        if e.num_samples ≤ e.conv j then (s, eo)
        else if fires e s j then
          evalSteps e perm (List.range' (j + 1) k)
            (s.set j (s.getD (j - 1) (FP.val 0)),
             match eo with | none => some j | some a => some a)
        else
          evalSteps e perm (List.range' (j + 1) k)
            (s.set j (toFP (e.u (perm.take (j + 1)))), eo) := rfl
    rw [hstep, if_neg hguard]
    by_cases hf : fires e s j
    · rw [if_pos hf]
      set v := s.getD (j - 1) (FP.val 0) with hv
      set eo' := (match eo with | none => some j | some a => some a) with heo'
      set F := evalSteps e perm (List.range' (j + 1) k) (s.set j v, eo') with hF
      have htake : F.1.take j = s.take j := by
        rw [hF, evalSteps_take _ _ _ _ _ _ hrest, take_set_of_le _ (le_refl j)]
      have hfiresF : fires e F.1 j = fires e s j := fires_congr e htake
      rcases List.mem_cons.mp hi with hij | hitail
      · subst hij
        have hgetj : F.1.getD i (FP.val 0) = v := by
          rw [hF, evalSteps_getD_not_mem _ _ _ _ _ _ _ hresti,
            getD_set_self _ (by omega)]
        have hgetj1 : F.1.getD (i - 1) (FP.val 0) = v := by
          rw [hF, evalSteps_getD_not_mem _ _ _ _ _ _ _
            (fun m hm => by have := hrest m hm; omega),
            getD_set_ne _ (by omega)]
        rw [hgetj, hfiresF, if_pos hf, hgetj1]
      · exact ih (j + 1) (s.set j v) eo' (by omega)
          (by rw [List.length_set]; omega) hnb' i hitail
    · rw [if_neg hf]
      set v := toFP (e.u (perm.take (j + 1))) with hv
      set F := evalSteps e perm (List.range' (j + 1) k) (s.set j v, eo) with hF
      have htake : F.1.take j = s.take j := by
        rw [hF, evalSteps_take _ _ _ _ _ _ hrest, take_set_of_le _ (le_refl j)]
      have hfiresF : fires e F.1 j = fires e s j := fires_congr e htake
      rcases List.mem_cons.mp hi with hij | hitail
      · subst hij
        have hgetj : F.1.getD i (FP.val 0) = v := by
          rw [hF, evalSteps_getD_not_mem _ _ _ _ _ _ _ hresti,
            getD_set_self _ (by omega)]
        rw [hgetj, hfiresF, if_neg hf]
      · exact ih (j + 1) (s.set j v) eo (by omega)
          (by rw [List.length_set]; omega) hnb' i hitail


/-- Accumulation of `early_stop` along a break-free run: the first position
(if any) at which the plateau test fires, unless already set. -/
theorem evalSteps_early (e : EvalEnv) (perm : List ℕ) (k : ℕ) :
    ∀ (j : ℕ) (s : List FP) (eo : Option ℕ),
      1 ≤ j → j + k ≤ s.length →
      (∀ i ∈ List.range' j k, e.conv i < e.num_samples) →
      (evalSteps e perm (List.range' j k) (s, eo)).2 =
        match eo with
        | some a => some a
        | none => List.find?
            (fun i => fires e ((evalSteps e perm (List.range' j k) (s, eo)).1) i)
            (List.range' j k) := by
  induction k with
  | zero =>
    intro j s eo _ _ _
    cases eo <;> rfl
  | succ k ih =>
    intro j s eo hj hlen hnb
    have hjmem : j ∈ List.range' j (k + 1) := by
      rw [List.mem_range'_1]; omega
    have hguard : ¬ e.num_samples ≤ e.conv j := by
      have := hnb j hjmem
      omega
    have hrest : ∀ m ∈ List.range' (j + 1) k, j ≤ m := by
      intro m hm
      rw [List.mem_range'_1] at hm
      omega
    have hnb' : ∀ m ∈ List.range' (j + 1) k, e.conv m < e.num_samples := by
      intro m hm
      apply hnb
      rw [List.mem_range'_1] at hm ⊢
      omega
    have hlen' : ∀ v : FP, j + 1 + k ≤ (s.set j v).length := by
      intro v; rw [List.length_set]; omega
    rw [List.range'_succ]
    have hstep : ∀ eo₁ : Option ℕ, evalSteps e perm (j :: List.range' (j + 1) k) (s, eo₁) =
        if e.num_samples ≤ e.conv j then (s, eo₁)
        else if fires e s j then
          evalSteps e perm (List.range' (j + 1) k)
            (s.set j (s.getD (j - 1) (FP.val 0)),
             match eo₁ with | none => some j | some a => some a)
        else
          evalSteps e perm (List.range' (j + 1) k)
            (s.set j (toFP (e.u (perm.take (j + 1)))), eo₁) := fun _ => rfl
    by_cases hf : fires e s j
    · cases eo with
      | some a =>
        rw [hstep, if_neg hguard, if_pos hf]
        have h2 := ih (j + 1) (s.set j (s.getD (j - 1) (FP.val 0))) (some a)
          (by omega) (hlen' _) hnb'
        simpa using h2
      | none =>
        rw [hstep, if_neg hguard, if_pos hf]
        have h2 := ih (j + 1) (s.set j (s.getD (j - 1) (FP.val 0))) (some j)
          (by omega) (hlen' _) hnb'
        have htake : (evalSteps e perm (List.range' (j + 1) k)
            (s.set j (s.getD (j - 1) (FP.val 0)), some j)).1.take j = s.take j := by
          rw [evalSteps_take _ _ _ _ _ _ hrest, take_set_of_le _ (le_refl j)]
        rw [List.find?_cons_of_pos _ (by rw [fires_congr e htake]; exact hf)]
        simpa using h2
    · cases eo with
      | some a =>
        rw [hstep, if_neg hguard, if_neg hf]
        have h2 := ih (j + 1) (s.set j (toFP (e.u (perm.take (j + 1))))) (some a)
          (by omega) (hlen' _) hnb'
        simpa using h2
      | none =>
        rw [hstep, if_neg hguard, if_neg hf]
        have h2 := ih (j + 1) (s.set j (toFP (e.u (perm.take (j + 1))))) none
          (by omega) (hlen' _) hnb'
        have htake : (evalSteps e perm (List.range' (j + 1) k)
            (s.set j (toFP (e.u (perm.take (j + 1)))), none)).1.take j = s.take j := by
          rw [evalSteps_take _ _ _ _ _ _ hrest, take_set_of_le _ (le_refl j)]
        rw [List.find?_cons_of_neg _ (by rw [fires_congr e htake]; simp [hf])]
        simpa using h2

/-- The loop never executes a step past the first break position: running the
full step list equals running its break-free prefix. -/
theorem evalSteps_eq_takeWhile (e : EvalEnv) (perm : List ℕ) (ps : List ℕ) :
    ∀ st : List FP × Option ℕ,
      evalSteps e perm ps st =
        evalSteps e perm (ps.takeWhile (fun j => decide (e.conv j < e.num_samples))) st := by
  induction ps with
  | nil => intro st; rfl
  | cons j rest ih =>
    intro st
    obtain ⟨s, eo⟩ := st
    rw [List.takeWhile_cons]
    by_cases hc : e.conv j < e.num_samples
    · rw [if_pos (by simpa using hc)]
      have hguard : ¬ e.num_samples ≤ e.conv j := by omega
      show (if e.num_samples ≤ e.conv j then _ else _ : List FP × Option ℕ) =
        (if e.num_samples ≤ e.conv j then _ else _ : List FP × Option ℕ)
      rw [if_neg hguard, if_neg hguard]
      split
      · exact ih _
      · exact ih _
    · rw [if_neg (by simpa using hc)]
      have hguard : e.num_samples ≤ e.conv j := by omega
      show (if e.num_samples ≤ e.conv j then _ else _ : List FP × Option ℕ) = (s, eo)
      rw [if_pos hguard]

/-- A `takeWhile` of a contiguous range is a contiguous range. -/
theorem takeWhile_range' (p : ℕ → Bool) :
    ∀ (n s : ℕ), (List.range' s n).takeWhile p =
      List.range' s ((List.range' s n).takeWhile p).length := by
  intro n
  induction n with
  | zero => intro s; rfl
  | succ n ih =>
    intro s
    rw [List.range'_succ, List.takeWhile_cons]
    by_cases hp : p s
    · rw [if_pos hp, ih (s + 1)]
      rw [List.length_cons, List.length_range', List.range'_succ]
    · rw [if_neg hp]
      rfl

theorem executedSteps_eq_range' (e : EvalEnv) (n : ℕ) :
    executedSteps e n = List.range' 1 (executedSteps e n).length :=
  takeWhile_range' _ n 1

theorem executedSteps_length_le (e : EvalEnv) (n : ℕ) :
    (executedSteps e n).length ≤ n := by
  have h := List.Sublist.length_le (List.takeWhile_sublist
    (l := List.range' 1 n) (fun j => decide (e.conv j < e.num_samples)))
  simpa using h

theorem executedSteps_no_break (e : EvalEnv) (n : ℕ) :
    ∀ i ∈ executedSteps e n, e.conv i < e.num_samples := by
  intro i hi
  have := List.mem_takeWhile_imp hi
  simpa using this

theorem executedSteps_mem_bounds (e : EvalEnv) (n : ℕ) :
    ∀ i ∈ executedSteps e n, 1 ≤ i ∧ i ≤ n := by
  intro i hi
  have hsub := List.takeWhile_sublist
    (l := List.range' 1 n) (fun j => decide (e.conv j < e.num_samples))
  have : i ∈ List.range' 1 n := hsub.mem hi
  rw [List.mem_range'_1] at this
  omega

/-- The function `_run` is fully determined by its executed (break-free) steps. -/
theorem runEval_eq_executed (e : EvalEnv) (perm : List ℕ) :
    runEval e perm = evalSteps e perm (executedSteps e perm.length)
      (List.replicate (perm.length + 1) (FP.val 0), none) :=
  evalSteps_eq_takeWhile e perm (List.range' 1 perm.length) _

/-- Searching a contiguous range with `find?` returns exactly the least element of the
range satisfying the predicate. -/
theorem find?_range'_eq_some (p : ℕ → Bool) (j : ℕ) :
    ∀ (n s : ℕ), List.find? p (List.range' s n) = some j ↔
      j ∈ List.range' s n ∧ p j = true ∧
      ∀ i ∈ List.range' s n, i < j → p i = false := by
  intro n
  induction n with
  | zero =>
    intro s
    simp
  | succ n ih =>
    intro s
    rw [List.range'_succ]
    by_cases hp : p s
    · rw [List.find?_cons_of_pos _ hp]
      constructor
      · intro hj
        obtain rfl : s = j := by simpa using hj
        refine ⟨List.mem_cons_self _ _, hp, ?_⟩
        intro i hi hlt
        rw [List.mem_cons] at hi
        rcases hi with rfl | hi
        · omega
        · rw [List.mem_range'_1] at hi
          omega
      · rintro ⟨hjmem, hpj, hmin⟩
        rw [List.mem_cons] at hjmem
        rcases hjmem with rfl | hjmem
        · rfl
        · rw [List.mem_range'_1] at hjmem
          have hs : p s = false := hmin s (List.mem_cons_self _ _) (by omega)
          rw [hp] at hs
          exact absurd hs (by simp)
    · rw [List.find?_cons_of_neg _ hp]
      rw [ih (s + 1)]
      constructor
      · rintro ⟨hjmem, hpj, hmin⟩
        refine ⟨List.mem_cons_of_mem _ hjmem, hpj, ?_⟩
        intro i hi hlt
        rw [List.mem_cons] at hi
        rcases hi with rfl | hi
        · simpa using hp
        · exact hmin i hi hlt
      · rintro ⟨hjmem, hpj, hmin⟩
        rw [List.mem_cons] at hjmem
        rcases hjmem with rfl | hjmem
        · exact absurd hpj (by simpa using hp)
        · exact ⟨hjmem, hpj, fun i hi hlt => hmin i (List.mem_cons_of_mem _ hi) hlt⟩

/-- The function `_run` returns a trajectory of length `n + 1`. -/
theorem runEval_length (e : EvalEnv) (perm : List ℕ) :
    (runEval e perm).1.length = perm.length + 1 := by
  unfold runEval
  rw [evalSteps_length]
  exact List.length_replicate _ _

/-- Every executed position of the trajectory holds either the copied previous
score (plateau) or the model's (possibly NaN) score on `permutation[:j+1]`. -/
theorem runEval_char (e : EvalEnv) (perm : List ℕ) :
    ∀ i ∈ executedSteps e perm.length,
      (runEval e perm).1.getD i (FP.val 0) =
        if fires e (runEval e perm).1 i
        then (runEval e perm).1.getD (i - 1) (FP.val 0)
        else toFP (e.u (perm.take (i + 1))) := by
  intro i hi
  have hL := executedSteps_length_le e perm.length
  have hnb := executedSteps_no_break e perm.length
  rw [runEval_eq_executed, executedSteps_eq_range']
  rw [executedSteps_eq_range'] at hi hnb
  exact evalSteps_char e perm (executedSteps e perm.length).length 1 _ none
    (le_refl 1) (by rw [List.length_replicate]; omega) hnb i hi

/-- The returned `early_stop` is the first executed position at which the plateau fires. -/
theorem runEval_early (e : EvalEnv) (perm : List ℕ) :
    (runEval e perm).2 =
      List.find? (fun i => fires e (runEval e perm).1 i)
        (executedSteps e perm.length) := by
  have hL := executedSteps_length_le e perm.length
  have hnb := executedSteps_no_break e perm.length
  rw [runEval_eq_executed, executedSteps_eq_range']
  rw [executedSteps_eq_range'] at hnb
  exact evalSteps_early e perm (executedSteps e perm.length).length 1 _ none
    (le_refl 1) (by rw [List.length_replicate]; omega) hnb

/-- Once a step reads `converged.value >= num_samples` the loop breaks:
everything after that position in the step list is ignored. -/
theorem evalSteps_append_break (e : EvalEnv) (perm : List ℕ) (l2 : List ℕ) (b : ℕ)
    (hb : e.num_samples ≤ e.conv b) :
    ∀ (l1 : List ℕ) (st : List FP × Option ℕ),
      evalSteps e perm (l1 ++ b :: l2) st = evalSteps e perm l1 st := by
  intro l1
  induction l1 with
  | nil =>
    intro st
    obtain ⟨s, eo⟩ := st
    show (if e.num_samples ≤ e.conv b then _ else _ : List FP × Option ℕ) = (s, eo)
    rw [if_pos hb]
  | cons m l1 ih =>
    intro st
    obtain ⟨s, eo⟩ := st
    show (if e.num_samples ≤ e.conv m then _ else _ : List FP × Option ℕ) =
      (if e.num_samples ≤ e.conv m then _ else _ : List FP × Option ℕ)
    split
    · rfl
    · split
      · exact ih _
      · exact ih _

/-! ### Concrete evaluation environments used in the closed theorems below.
In all of them the model capability `u` scores a training prefix by a simple
arithmetic function of the prefix, so every run is fully computable. -/

/-- Score oracle returning the size of the training prefix; never fails;
tolerance 0 so the plateau rule never fires; signal constantly 0. -/
def envC1 : EvalEnv :=
  { u := fun l => some (l.length : ℚ), global_score := 100, score_tolerance := 0,
    min_samples := 1, num_samples := 2, conv := fun _ => 0 }

/-- Same oracle, but the shared convergence signal reaches `num_samples = 2`
exactly when read at loop position 2. -/
def env2 : EvalEnv :=
  { u := fun l => some (l.length : ℚ), global_score := 100, score_tolerance := 0,
    min_samples := 1, num_samples := 2, conv := fun j => if j = 2 then 2 else 0 }

/-- Oracle that raises (returns `none`) exactly on training prefixes of
size 2, modelling a model whose fit/score throws there. -/
def env6 : EvalEnv :=
  { u := fun l => if l.length = 2 then none else some (l.length : ℚ),
    global_score := 100, score_tolerance := 0,
    min_samples := 1, num_samples := 2, conv := fun _ => 0 }

/-- Huge tolerance: the plateau rule fires at position 1 already. -/
def envW : EvalEnv :=
  { u := fun l => some (l.length : ℚ), global_score := 0, score_tolerance := 1000,
    min_samples := 1, num_samples := 2, conv := fun _ => 0 }

/-- C1: evaluation of `ShapleyWorker._run` at a concrete failing input.
With permutation `[0, 1]`, no plateau and no break, the trajectory is
`[0, 2, 2]`: entry 1 is the score of `permutation[:2]` (the first TWO
elements, score 2), not the score of the first one element (score 1) as the
spec requires — `enumerate(..., start=1)` was combined with the 0-indexed
slice `permutation[:j + 1]`, unlike the serial reference implementation. -/
theorem trajectory_entry_off_by_one :
    (runEval envC1 [0, 1]).1 = [FP.val 0, FP.val 2, FP.val 2] ∧
    fires envC1 (runEval envC1 [0, 1]).1 1 = false ∧
    toFP (envC1.u ([0, 1].take 2)) = FP.val 2 ∧
    toFP (envC1.u ([0, 1].take 1)) = FP.val 1 ∧
    FP.val (2 : ℚ) ≠ FP.val 1 := by
  have h : (runEval envC1 [0, 1]).1 = [FP.val 0, FP.val 2, FP.val 2] := by
    simp [runEval, evalSteps, fires, windowMean, FP.mean, FP.sum, FP.divNat, FP.fabs,
          FP.sub, FP.flt, FP.add, toFP, envC1, List.range']
    norm_num
  refine ⟨h, ?_, by norm_num [envC1, toFP], by norm_num [envC1, toFP], by simp⟩
  rw [h]
  norm_num [fires, windowMean, FP.mean, FP.sum, FP.divNat, FP.fabs,
            FP.sub, FP.flt, FP.add, envC1]

/-- C2 counterexample: with `env2` the loop breaks at position 2 (the shared
signal reaches `num_samples` there), the last computed score is 2, yet the
remaining trajectory entry is 0 — not a flat continuation of the last
computed score as the spec claims. -/
theorem break_leaves_zeroes_counterexample :
    env2.num_samples ≤ env2.conv 2 ∧
    (runEval env2 [0, 1]).1.getD 1 (FP.val 0) = FP.val 2 ∧
    (runEval env2 [0, 1]).1.getD 2 (FP.val 0) = FP.val 0 ∧
    FP.val (0 : ℚ) ≠ FP.val 2 := by
  have h : (runEval env2 [0, 1]).1 = [FP.val 0, FP.val 2, FP.val 0] := by
    simp [runEval, evalSteps, fires, windowMean, FP.mean, FP.sum, FP.divNat, FP.fabs,
          FP.sub, FP.flt, FP.add, toFP, env2, List.range']
    norm_num
  rw [h]
  refine ⟨by norm_num [env2], rfl, rfl, by simp⟩

/-- C2 (amended): when the shared signal first reaches `num_samples` at
position `j`, evaluation stops immediately and every trajectory entry from
position `j` onwards keeps its initial value 0 (`np.zeros`), whatever the
previously computed scores were. -/
theorem break_leaves_initial_zeroes (e : EvalEnv) (perm : List ℕ) (j : ℕ)
    (h1 : 1 ≤ j) (hjn : j ≤ perm.length)
    (hbreak : e.num_samples ≤ e.conv j)
    (_hbefore : ∀ i, 1 ≤ i → i < j → e.conv i < e.num_samples) :
    ∀ k, j ≤ k → (runEval e perm).1.getD k (FP.val 0) = FP.val 0 := by
  intro k hk
  have hsplit : List.range' 1 (j - 1) ++
      List.range' j (perm.length - (j - 1)) = List.range' 1 perm.length := by
    have h := List.range'_append_1 1 (j - 1) (perm.length - (j - 1))
    rw [show 1 + (j - 1) = j by omega] at h
    rw [show perm.length - (j - 1) + (j - 1) = perm.length by omega] at h
    exact h
  have hcons : List.range' j (perm.length - (j - 1)) =
      j :: List.range' (j + 1) (perm.length - (j - 1) - 1) := by
    rw [show perm.length - (j - 1) = (perm.length - (j - 1) - 1) + 1 by omega,
      List.range'_succ]
    norm_num
  unfold runEval
  rw [← hsplit, hcons, evalSteps_append_break e perm _ j hbreak]
  have huntouched := evalSteps_getD_not_mem e perm (List.range' 1 (j - 1))
    (List.replicate (perm.length + 1) (FP.val 0)) none k (FP.val 0)
    (by intro m hm; rw [List.mem_range'_1] at hm; omega)
  rw [huntouched, List.getD_eq_getElem?_getD, List.getElem?_replicate]
  split
  · rfl
  · rfl

/-- C2 witness for the amended statement, at the concrete input of the
counterexample: the entry at the stopping position 2 is 0. -/
theorem break_leaves_initial_zeroes_witness :
    (runEval env2 [0, 1]).1.getD 2 (FP.val 0) = FP.val 0 :=
  break_leaves_initial_zeroes env2 [0, 1] 2 (by norm_num) (by norm_num)
    (by norm_num [env2])
    (by
      intro i hi1 hi2
      have hi : i = 1 := by omega
      subst hi
      norm_num [env2])
    2 (le_refl 2)

/-- C6: a model failure (fit/score raising) at an executed, non-plateau
position is recorded as NaN in the trajectory; the run is not aborted: the
trajectory still has full length `n + 1` and every other executed
non-plateau position still holds its own model score. -/
theorem model_failure_recorded_nan (e : EvalEnv) (perm : List ℕ) (j : ℕ)
    (hj : j ∈ executedSteps e perm.length)
    (hpl : fires e (runEval e perm).1 j = false)
    (hu : e.u (perm.take (j + 1)) = none) :
    (runEval e perm).1.getD j (FP.val 0) = FP.nan ∧
    (runEval e perm).1.length = perm.length + 1 ∧
    ∀ i ∈ executedSteps e perm.length,
      fires e (runEval e perm).1 i = false →
        (runEval e perm).1.getD i (FP.val 0) = toFP (e.u (perm.take (i + 1))) := by
  refine ⟨?_, runEval_length e perm, ?_⟩
  · have h := runEval_char e perm j hj
    rw [hpl] at h
    simp only [Bool.false_eq_true, if_false] at h
    rw [h, hu]
    rfl
  · intro i hi hfi
    have h := runEval_char e perm i hi
    rw [hfi] at h
    simpa using h

/-- C6 witness: with `env6` the model fails on the prefix of size 2 reached
at position 1; the trajectory entry there is NaN. -/
theorem model_failure_recorded_nan_witness :
    (runEval env6 [0, 1]).1.getD 1 (FP.val 0) = FP.nan := by
  have hrun : (runEval env6 [0, 1]).1 = [FP.val 0, FP.nan, FP.nan] := by
    simp [runEval, evalSteps, fires, windowMean, FP.mean, FP.sum, FP.divNat, FP.fabs,
          FP.sub, FP.flt, FP.add, toFP, env6, List.range']
    norm_num
  have hpl : fires env6 (runEval env6 [0, 1]).1 1 = false := by
    rw [hrun]
    norm_num [fires, windowMean, FP.mean, FP.sum, FP.divNat, FP.fabs,
              FP.sub, FP.flt, FP.add, env6]
  exact (model_failure_recorded_nan env6 [0, 1] 1 (by decide) hpl (by rfl)).1

/-- C7: `early_stop` is `some j` exactly when `j` is the first executed
position at which the plateau rule fires, and any present `early_stop`
position `j` satisfies `0 < j <= len(permutation)`. -/
theorem early_stop_first_fired (e : EvalEnv) (perm : List ℕ) :
    (∀ j, (runEval e perm).2 = some j → 0 < j ∧ j ≤ perm.length) ∧
    (∀ j, (runEval e perm).2 = some j ↔
      (j ∈ executedSteps e perm.length ∧
       fires e (runEval e perm).1 j = true ∧
       ∀ i ∈ executedSteps e perm.length, i < j →
         fires e (runEval e perm).1 i = false)) := by
  have hmain : ∀ j, (runEval e perm).2 = some j ↔
      (j ∈ executedSteps e perm.length ∧
       fires e (runEval e perm).1 j = true ∧
       ∀ i ∈ executedSteps e perm.length, i < j →
         fires e (runEval e perm).1 i = false) := by
    intro j
    rw [runEval_early, executedSteps_eq_range']
    exact find?_range'_eq_some _ j _ 1
  refine ⟨?_, hmain⟩
  intro j hj
  have hmem := ((hmain j).mp hj).1
  have hb := executedSteps_mem_bounds e perm.length j hmem
  exact ⟨by omega, hb.2⟩

/-- C7 witness: with `envW` the plateau fires at position 1, `early_stop`
is `some 1`, and the theorem yields its bounds there. -/
theorem early_stop_first_fired_witness :
    0 < 1 ∧ 1 ≤ ([0, 1] : List ℕ).length := by
  have hrun : (runEval envW [0, 1]).2 = some 1 := by
    simp [runEval, evalSteps, fires, windowMean, FP.mean, FP.sum, FP.divNat, FP.fabs,
          FP.sub, FP.flt, FP.add, toFP, envW, List.range']
  exact (early_stop_first_fired envW [0, 1]).1 1 hrun

/-! ### The value aggregator (`get_process_result` in
`parallel_montecarlo_shapley`).  Score values are modelled as exact
rationals; `marginal` stands for the difference `s - p` of two consecutive
trajectory scores. -/

/-- One running-mean update appended to one index's history:
`values[j].append((it - 1) / it * values[j][-1] + (s - p) / it)`. -/
def appendEntry (hist : List ℚ) (it : ℕ) (marginal : ℚ) : List ℚ :=
  hist ++ [((it : ℚ) - 1) / (it : ℚ) * hist.getLastD 0 + marginal / (it : ℚ)]

/-- The loop of `get_process_result`:
`for j, s, p in zip(permutation, scores[1:], scores[:-1]): values[j].append(...)`. -/
def applyUpdates (it : ℕ) : (ℕ → List ℚ) → List (ℕ × ℚ × ℚ) → (ℕ → List ℚ)
  | values, [] => values
  | values, (idx, s, p) :: rest =>
      applyUpdates it
        (Function.update values idx (appendEntry (values idx) it (s - p))) rest

/-- The function `get_process_result(it)` applied to one received result
`(permutation, scores)`. -/
def get_process_result (values : ℕ → List ℚ) (perm : List ℕ) (scores : List ℚ)
    (it : ℕ) : ℕ → List ℚ :=
  applyUpdates it values (perm.zip (scores.tail.zip scores.dropLast))

theorem applyUpdates_not_mem (it : ℕ) (l : List (ℕ × ℚ × ℚ)) :
    ∀ (values : ℕ → List ℚ) (idx : ℕ),
      idx ∉ l.map (fun t => t.1) → applyUpdates it values l idx = values idx := by
  induction l with
  | nil => intro values idx _; rfl
  | cons h rest ih =>
    intro values idx hmem
    obtain ⟨i, s, p⟩ := h
    rw [List.map_cons, List.mem_cons] at hmem
    push_neg at hmem
    show applyUpdates it _ rest idx = _
    rw [ih _ _ hmem.2, Function.update_noteq hmem.1]

theorem applyUpdates_unique (it : ℕ) (idx : ℕ) (s p : ℚ) (l2 : List (ℕ × ℚ × ℚ)) :
    ∀ (l1 : List (ℕ × ℚ × ℚ)) (values : ℕ → List ℚ),
      idx ∉ l1.map (fun t => t.1) → idx ∉ l2.map (fun t => t.1) →
      applyUpdates it values (l1 ++ (idx, s, p) :: l2) idx =
        appendEntry (values idx) it (s - p) := by
  intro l1
  induction l1 with
  | nil =>
    intro values _ h2
    show applyUpdates it _ l2 idx = _
    rw [applyUpdates_not_mem it l2 _ _ h2, Function.update_same]
  | cons h rest ih =>
    intro values hmem h2
    obtain ⟨i, s', p'⟩ := h
    rw [List.map_cons, List.mem_cons] at hmem
    push_neg at hmem
    show applyUpdates it _ (rest ++ (idx, s, p) :: l2) idx = _
    rw [ih _ hmem.2 h2, Function.update_noteq hmem.1]

/-- C3: processing one result at global iteration `it`, the entry appended
to `ValueHistory[permutation[j-1]]` equals
`mean + ((scores[j] - scores[j-1]) - mean) / t` where `mean` is the last
entry of that index's history and `t` is that index's own update count (its
current history length: one seed entry plus one entry per past update).
The hypothesis `hcount` is the engine invariant making the global `it` of
the source coincide with the per-index counter. -/
theorem aggregator_update_running_mean (values : ℕ → List ℚ) (perm : List ℕ)
    (scores : List ℚ) (it j : ℕ)
    (hnd : perm.Nodup)
    (hslen : scores.length = perm.length + 1)
    (hcount : (values (perm.getD (j - 1) 0)).length = it)
    (hit1 : 1 ≤ it)
    (hj1 : 1 ≤ j) (hjn : j ≤ perm.length) :
    get_process_result values perm scores it (perm.getD (j - 1) 0) =
      values (perm.getD (j - 1) 0) ++
        [(values (perm.getD (j - 1) 0)).getLastD 0 +
          ((scores.getD j 0 - scores.getD (j - 1) 0)
            - (values (perm.getD (j - 1) 0)).getLastD 0)
          / ((values (perm.getD (j - 1) 0)).length : ℚ)] := by
  have hn : perm.length = perm.length := rfl
  have hj1n : j - 1 < perm.length := by omega
  have hjs : j < scores.length := by omega
  have hj1s : j - 1 < scores.length := by omega
  have hz2len : (scores.tail.zip scores.dropLast).length = perm.length := by
    rw [List.length_zip, List.length_tail, List.length_dropLast, hslen]
    omega
  have hzlen : (perm.zip (scores.tail.zip scores.dropLast)).length = perm.length := by
    rw [List.length_zip, hz2len]
    omega
  have hmapfst : (perm.zip (scores.tail.zip scores.dropLast)).map Prod.fst = perm :=
    List.map_fst_zip _ _ (by omega)
  have hj1z : j - 1 < (perm.zip (scores.tail.zip scores.dropLast)).length := by omega
  have hgetD : perm.getD (j - 1) 0 = perm[j - 1] := by
    rw [List.getD_eq_getElem?_getD, List.getElem?_eq_getElem hj1n]
    rfl
  have htl : j - 1 < scores.tail.length := by
    rw [List.length_tail]; omega
  have hdl : j - 1 < scores.dropLast.length := by
    rw [List.length_dropLast]; omega
  have h1 : scores.tail[j - 1] = scores[j] := by
    rw [List.getElem_tail]
    simp only [show j - 1 + 1 = j from by omega]
  have h2 : scores.dropLast[j - 1] = scores[j - 1] :=
    List.getElem_dropLast ..
  have helem : (perm.zip (scores.tail.zip scores.dropLast))[j - 1] =
      (perm[j - 1], scores[j], scores[j - 1]) := by
    rw [List.getElem_zip, List.getElem_zip, h1, h2]
  have hsplit : perm.zip (scores.tail.zip scores.dropLast) =
      (perm.zip (scores.tail.zip scores.dropLast)).take (j - 1) ++
        (perm[j - 1], scores[j], scores[j - 1]) ::
          (perm.zip (scores.tail.zip scores.dropLast)).drop (j - 1 + 1) := by
    conv_lhs => rw [← List.take_append_drop (j - 1)
      (perm.zip (scores.tail.zip scores.dropLast))]
    congr 1
    rw [← helem]
    exact (List.getElem_cons_drop _ _ hj1z).symm
  have hnm1 : perm[j - 1] ∉
      ((perm.zip (scores.tail.zip scores.dropLast)).take (j - 1)).map
        (fun t => t.1) := by
    intro hmem
    rw [show ((fun t => t.1) : ℕ × ℚ × ℚ → ℕ) = Prod.fst from rfl] at hmem
    rw [List.map_take, hmapfst] at hmem
    rw [List.mem_iff_getElem] at hmem
    obtain ⟨i, hi, hival⟩ := hmem
    have hilen : i < j - 1 := by
      have hlt := hi
      rw [List.length_take] at hlt
      omega
    rw [List.getElem_take] at hival
    have : i = j - 1 := (hnd.getElem_inj_iff).mp hival
    omega
  have hnm2 : perm[j - 1] ∉
      ((perm.zip (scores.tail.zip scores.dropLast)).drop (j - 1 + 1)).map
        (fun t => t.1) := by
    intro hmem
    rw [show ((fun t => t.1) : ℕ × ℚ × ℚ → ℕ) = Prod.fst from rfl] at hmem
    rw [List.map_drop, hmapfst] at hmem
    rw [List.mem_iff_getElem] at hmem
    obtain ⟨i, hi, hival⟩ := hmem
    rw [List.getElem_drop] at hival
    have : j - 1 + 1 + i = j - 1 := (hnd.getElem_inj_iff).mp hival
    omega
  have hit0 : (it : ℚ) ≠ 0 := by
    have hpos : (0 : ℚ) < (it : ℚ) := by
      exact_mod_cast Nat.lt_of_lt_of_le Nat.zero_lt_one hit1
    exact ne_of_gt hpos
  have hgs : scores.getD j 0 = scores[j] := by
    rw [List.getD_eq_getElem?_getD, List.getElem?_eq_getElem hjs]
    rfl
  have hgs1 : scores.getD (j - 1) 0 = scores[j - 1] := by
    rw [List.getD_eq_getElem?_getD, List.getElem?_eq_getElem hj1s]
    rfl
  rw [hgetD] at hcount ⊢
  unfold get_process_result
  rw [hsplit, applyUpdates_unique it (perm[j - 1]) (scores[j])
    (scores[j - 1]) _ _ values hnm1 hnm2]
  unfold appendEntry
  have hentry : ((it : ℚ) - 1) / (it : ℚ) * (values (perm[j - 1])).getLastD 0
        + (scores[j] - scores[j - 1]) / (it : ℚ)
      = (values (perm[j - 1])).getLastD 0 +
          ((scores.getD j 0 - scores.getD (j - 1) 0)
            - (values (perm[j - 1])).getLastD 0)
          / ((values (perm[j - 1])).length : ℚ) := by
    rw [hgs, hgs1, hcount]
    field_simp
    ring
  rw [hentry]

/-- C3 witness: seeded histories, one result `([0,1], [0,5,7])` at
iteration 1: index 0 (at position 1) gets `0 + ((5 - 0) - 0) / 1 = 5`. -/
theorem aggregator_update_running_mean_witness :
    get_process_result (fun _ => ([0] : List ℚ)) [0, 1] [0, 5, 7] 1 0 = [0, 5] := by
  have h := aggregator_update_running_mean (fun _ => ([0] : List ℚ)) [0, 1] [0, 5, 7]
    1 1 (by decide) (by simp) rfl (le_refl 1) (le_refl 1) (by decide)
  norm_num [List.getD_cons_zero, List.getD_cons_succ] at h
  exact h

/-! ### Order invariance of the running-mean aggregation (claim C9).
A multiset of `(index, marginal)` pairs is fed through the aggregator's
per-pair update `appendEntry`; under the engine invariant of C3 the divisor
of each update is the index's own history length. -/

/-- Seed state of the aggregator: `values = {i: [0.0] for i in data.index}`. -/
def valuesInit : ℕ → List ℚ := fun _ => [0]

/-- Feed a list of `(index, marginal)` pairs through the running-mean
update, each update dividing by the target index's current history length
(its own update counter, as in C3). -/
def feedPairs : (ℕ → List ℚ) → List (ℕ × ℚ) → (ℕ → List ℚ)
  | values, [] => values
  | values, (idx, marg) :: rest =>
      feedPairs
        (Function.update values idx
          (appendEntry (values idx) (values idx).length marg)) rest

/-- Single-history version of `feedPairs`. -/
def foldHist : List ℚ → List ℚ → List ℚ
  | hist, [] => hist
  | hist, m :: ms => foldHist (appendEntry hist hist.length m) ms

theorem feedPairs_eq_foldHist (idx : ℕ) :
    ∀ (l : List (ℕ × ℚ)) (values : ℕ → List ℚ),
      feedPairs values l idx =
        foldHist (values idx) ((l.filter (fun pr => pr.1 == idx)).map Prod.snd) := by
  intro l
  induction l with
  | nil => intro values; rfl
  | cons h rest ih =>
    intro values
    obtain ⟨i, m⟩ := h
    by_cases hi : i = idx
    · have hupd : Function.update values i
          (appendEntry (values i) (values i).length m) idx =
          appendEntry (values idx) (values idx).length m := by
        rw [hi, Function.update_same]
      show feedPairs (Function.update values i
        (appendEntry (values i) (values i).length m)) rest idx = _
      rw [ih, hupd, List.filter_cons_of_pos (by simp [hi]), List.map_cons]
      rfl
    · show feedPairs (Function.update values i
        (appendEntry (values i) (values i).length m)) rest idx = _
      rw [ih, List.filter_cons_of_neg (by simp [hi])]
      rw [Function.update_noteq (fun hc => hi hc.symm)]

theorem foldHist_getLastD :
    ∀ (ms : List ℚ) (hist : List ℚ), hist ≠ [] →
      ((hist.length : ℚ) - 1 + ms.length) * (foldHist hist ms).getLastD 0 =
        ((hist.length : ℚ) - 1) * hist.getLastD 0 + ms.sum := by
  intro ms
  induction ms with
  | nil =>
    intro hist _
    show ((hist.length : ℚ) - 1 + (([] : List ℚ).length : ℕ)) *
      (foldHist hist []).getLastD 0 = _
    simp [foldHist]
  | cons m ms ih =>
    intro hist hne
    have hL1 : 1 ≤ hist.length := List.length_pos.mpr hne
    have hL0 : ((hist.length : ℚ)) ≠ 0 := by
      have hpos : (0 : ℚ) < (hist.length : ℚ) := by exact_mod_cast hL1
      exact ne_of_gt hpos
    have hne' : appendEntry hist hist.length m ≠ [] := by
      simp [appendEntry]
    have hlen' : (appendEntry hist hist.length m).length = hist.length + 1 := by
      simp [appendEntry]
    have hlast' : (appendEntry hist hist.length m).getLastD 0 =
        ((hist.length : ℚ) - 1) / (hist.length : ℚ) * hist.getLastD 0
          + m / (hist.length : ℚ) :=
      List.getLastD_concat _ _ _
    have h := ih (appendEntry hist hist.length m) hne'
    rw [hlen', hlast'] at h
    have hmul : (((hist.length + 1 : ℕ) : ℚ) - 1) *
        (((hist.length : ℚ) - 1) / (hist.length : ℚ) * hist.getLastD 0
          + m / (hist.length : ℚ)) =
        ((hist.length : ℚ) - 1) * hist.getLastD 0 + m := by
      push_cast
      field_simp
    rw [hmul] at h
    show ((hist.length : ℚ) - 1 + ((m :: ms).length : ℕ)) *
      (foldHist (appendEntry hist hist.length m) ms).getLastD 0 =
      ((hist.length : ℚ) - 1) * hist.getLastD 0 + (m :: ms).sum
    rw [List.sum_cons, List.length_cons]
    push_cast at h ⊢
    linear_combination h

/-- The final mean of a seeded history after feeding marginals `ms` is their
arithmetic mean (0 for no marginals), hence depends only on sum and count. -/
theorem foldHist_seeded (ms : List ℚ) :
    ((ms.length : ℚ)) * (foldHist [0] ms).getLastD 0 = ms.sum := by
  have h := foldHist_getLastD ms [0] (by simp)
  simpa using h

/-- C9: the aggregator's running-mean update is order-invariant: two
arrival orders of the same multiset of `(index, marginal)` pairs produce
the same final mean for every index (exactly, in rational arithmetic). -/
theorem aggregator_order_invariant (l1 l2 : List (ℕ × ℚ)) (hperm : l1.Perm l2) :
    ∀ idx, (feedPairs valuesInit l1 idx).getLastD 0 =
      (feedPairs valuesInit l2 idx).getLastD 0 := by
  intro idx
  rw [feedPairs_eq_foldHist, feedPairs_eq_foldHist]
  have hp : ((l1.filter (fun pr => pr.1 == idx)).map Prod.snd).Perm
      ((l2.filter (fun pr => pr.1 == idx)).map Prod.snd) :=
    (hperm.filter _).map _
  have hlen := hp.length_eq
  have hsum := hp.sum_eq
  rcases List.eq_nil_or_concat ((l1.filter (fun pr => pr.1 == idx)).map Prod.snd)
    with hnil | ⟨ys, y, hy⟩
  · rw [hnil] at hlen ⊢
    have hnil2 : ((l2.filter (fun pr => pr.1 == idx)).map Prod.snd) = [] :=
      List.eq_nil_of_length_eq_zero (by simpa using hlen.symm)
    rw [hnil2]
  · have hlpos : 0 < ((l1.filter (fun pr => pr.1 == idx)).map Prod.snd).length := by
      rw [hy]
      simp
    have hl0 : (((l1.filter (fun pr => pr.1 == idx)).map Prod.snd).length : ℚ) ≠ 0 := by
      have hpos : (0 : ℚ) <
          (((l1.filter (fun pr => pr.1 == idx)).map Prod.snd).length : ℚ) := by
        exact_mod_cast hlpos
      exact ne_of_gt hpos
    have h1 := foldHist_seeded ((l1.filter (fun pr => pr.1 == idx)).map Prod.snd)
    have h2 := foldHist_seeded ((l2.filter (fun pr => pr.1 == idx)).map Prod.snd)
    rw [← hlen, ← hsum] at h2
    exact mul_left_cancel₀ hl0 (h1.trans h2.symm)

/-- C9 witness: `[(0, 3), (0, 5)]` and `[(0, 5), (0, 3)]` give index 0 the
same final mean. -/
theorem aggregator_order_invariant_witness :
    (feedPairs valuesInit [(0, 3), (0, 5)] 0).getLastD 0 =
      (feedPairs valuesInit [(0, 5), (0, 3)] 0).getLastD 0 :=
  aggregator_order_invariant [(0, 3), (0, 5)] [(0, 5), (0, 3)]
    (List.Perm.swap (0, 5) (0, 3) []) 0

/-! ### The legacy single-threaded reference (`serial_montecarlo_shapley`)
and its comparison with the parallel engine (claim C4).  The bootstrap is
external: `global_score` and the scaled `score_tolerance` are inputs.  The
serial code has no try/except, so its score capability `u` is total. -/

/-- The inner loop of `serial_montecarlo_shapley` over 0-indexed positions:
```
for j, index in enumerate(permutation):
    last_scores = scores[max(j - min_samples, 0):j].mean() if j > 0 else 0.0
    if abs(global_score - last_scores) < score_tolerance:
        scores[j + 1] = scores[j]
    else:
        fit(permutation[:j + 1]); scores[j + 1] = score(...)
    values[permutation[j]].append(values[permutation[j]][-1]
        + (scores[j + 1] - values[permutation[j]][-1]) / (j + 1))
```
-/
def serialSteps (g tol : ℚ) (minS : ℕ) (u : List ℕ → ℚ) (perm : List ℕ) :
    List ℕ → List ℚ × (ℕ → List ℚ) → List ℚ × (ℕ → List ℚ)
  | [], st => st
  | j :: rest, (scores, values) =>
    let window := (scores.take j).drop (j - minS)
    let last_scores : ℚ :=
      if 0 < j then window.sum / (window.length : ℚ) else 0
    let scores' :=
      if |g - last_scores| < tol then scores.set (j + 1) (scores.getD j 0)
      else scores.set (j + 1) (u (perm.take (j + 1)))
    let idx := perm.getD j 0
    serialSteps g tol minS u perm rest
      (scores',
       Function.update values idx
         (values idx ++ [(values idx).getLastD 0 +
           (scores'.getD (j + 1) 0 - (values idx).getLastD 0) / ((j : ℚ) + 1)]))

/-- One permutation processed by the serial reference:
`scores = np.zeros(len(permutation) + 1)` then the loop. -/
def serial_one_permutation (g tol : ℚ) (minS : ℕ) (u : List ℕ → ℚ)
    (values : ℕ → List ℚ) (perm : List ℕ) : List ℚ × (ℕ → List ℚ) :=
  serialSteps g tol minS u perm (List.range perm.length)
    (List.replicate (perm.length + 1) 0, values)

/-- One permutation processed by the parallel engine with one worker and a
quiescent convergence signal: `ShapleyWorker._run` followed by
`get_process_result` at iteration 1. -/
def parallel_one_permutation (g tol : ℚ) (minS numS : ℕ) (u : List ℕ → ℚ)
    (values : ℕ → List ℚ) (perm : List ℕ) : ℕ → List ℚ :=
  get_process_result values perm
    ((runEval
        { u := fun l => some (u l), global_score := g, score_tolerance := tol,
          min_samples := minS, num_samples := numS, conv := fun _ => 0 } perm).1.map
      FP.toRat)
    1

/-- C4 counterexample: same model (`u` scoring a prefix by its size), same
permutation `[0, 1]`, same parameters.  The parallel engine's estimate for
index 0 is 2 (marginal-based update on its off-by-one trajectory), the
serial reference's is 1: the two computations disagree far beyond any
floating-point epsilon. -/
theorem parallel_serial_divergence_counterexample :
    (parallel_one_permutation 100 0 1 2 (fun l => (l.length : ℚ))
        valuesInit [0, 1] 0).getLastD 0 = 2 ∧
    ((serial_one_permutation 100 0 1 (fun l => (l.length : ℚ))
        valuesInit [0, 1]).2 0).getLastD 0 = 1 ∧
    (2 : ℚ) ≠ 1 := by
  refine ⟨?_, ?_, by norm_num⟩
  · have hrun : (runEval
        { u := fun l => some ((l.length : ℚ)), global_score := 100,
          score_tolerance := 0, min_samples := 1, num_samples := 2,
          conv := fun _ => 0 } [0, 1]).1 = [FP.val 0, FP.val 2, FP.val 2] := by
      simp [runEval, evalSteps, fires, windowMean, FP.mean, FP.sum, FP.divNat,
        FP.fabs, FP.sub, FP.flt, FP.add, toFP, List.range']
      norm_num
    simp only [parallel_one_permutation]
    rw [hrun]
    norm_num [get_process_result, applyUpdates, appendEntry, valuesInit,
      Function.update, FP.toRat, List.getLastD]
  · norm_num [serial_one_permutation, serialSteps, List.range, List.range',
      valuesInit, Function.update, List.getLastD]

/-- C4 (amended) exhibited at the same input: the two implementations use
different update rules (parallel: marginal `scores[j] - scores[j-1]` divided
by the iteration count; serial: absolute `scores[j+1]` relative to the
running value, divided by the position `j + 1`), so their final estimates
differ in general — here index 1 receives 0 from the parallel engine and 1
from the serial reference. -/
theorem parallel_serial_divergence :
    (parallel_one_permutation 100 0 1 2 (fun l => (l.length : ℚ))
        valuesInit [0, 1] 1).getLastD 0 = 0 ∧
    ((serial_one_permutation 100 0 1 (fun l => (l.length : ℚ))
        valuesInit [0, 1]).2 1).getLastD 0 = 1 ∧
    (0 : ℚ) ≠ 1 := by
  refine ⟨?_, ?_, by norm_num⟩
  · have hrun : (runEval
        { u := fun l => some ((l.length : ℚ)), global_score := 100,
          score_tolerance := 0, min_samples := 1, num_samples := 2,
          conv := fun _ => 0 } [0, 1]).1 = [FP.val 0, FP.val 2, FP.val 2] := by
      simp [runEval, evalSteps, fires, windowMean, FP.mean, FP.sum, FP.divNat,
        FP.fabs, FP.sub, FP.flt, FP.add, toFP, List.range']
      norm_num
    simp only [parallel_one_permutation]
    rw [hrun]
    norm_num [get_process_result, applyUpdates, appendEntry, valuesInit,
      Function.update, FP.toRat, List.getLastD]
  · norm_num [serial_one_permutation, serialSteps, List.range, List.range',
      valuesInit, Function.update, List.getLastD]

/-! ### The worker loop (`ShapleyWorker.run`, claim C5).  The task queue is
modelled by the list of values successive `get` calls return (`none` is the
sentinel; an exhausted list means `get_nowait` raises `queue.Empty`); the
evaluation of one task is an abstract function `f`.  The observable
behaviour is the list of actions the worker performs. -/

inductive WAction (α β : Type) : Type
  | evals (task : α) : WAction α β
  | posts (res : β) : WAction α β
  | reposts : WAction α β
deriving DecidableEq, Repr

/-- The loop of `ShapleyWorker.run`, given the current task in hand:
```
while True:
    if task is None: self.tasks.put(None); return
    result = self._run(task)
    try:
        task = self.tasks.get_nowait()
        if task is not None: self.results.put(result)
    except queue.Empty: return
```
-/
def workerRun (f : α → β) : Option α → List (Option α) → List (WAction α β)
  | none, _ => [WAction.reposts]
  | some p, [] => [WAction.evals p]
  | some p, none :: rest => WAction.evals p :: workerRun f none rest
  | some p, some q :: rest =>
      WAction.evals p :: WAction.posts (f p) :: workerRun f (some q) rest

/-- Results posted to the result queue, in order. -/
def postedOf : List (WAction α β) → List β :=
  List.filterMap fun a => match a with
    | WAction.posts r => some r
    | _ => none

/-- Tasks evaluated, in order. -/
def evaluatedOf : List (WAction α β) → List α :=
  List.filterMap fun a => match a with
    | WAction.evals t => some t
    | _ => none

theorem evaluatedOf_workerRun_ne_nil (f : α → β) (q : α) (ts : List (Option α)) :
    evaluatedOf (workerRun f (some q) ts) ≠ [] := by
  cases ts with
  | nil => simp [workerRun, evaluatedOf]
  | cons h rest =>
    cases h with
    | none => simp [workerRun, evaluatedOf]
    | some r => simp [workerRun, evaluatedOf]

/-- A worker posts the result of every evaluated task except the last one:
the result computed just before observing the sentinel or an empty queue is
discarded. -/
theorem workerRun_posted_dropLast (f : α → β) :
    ∀ (ts : List (Option α)) (p : α),
      postedOf (workerRun f (some p) ts) =
        ((evaluatedOf (workerRun f (some p) ts)).dropLast).map f := by
  intro ts
  induction ts with
  | nil => intro p; simp [workerRun, postedOf, evaluatedOf]
  | cons h rest ih =>
    intro p
    cases h with
    | none => simp [workerRun, postedOf, evaluatedOf]
    | some q =>
      rw [show workerRun f (some p) (some q :: rest) =
          WAction.evals p :: WAction.posts (f p) :: workerRun f (some q) rest
        from rfl]
      have hne := evaluatedOf_workerRun_ne_nil f q rest
      have heval : evaluatedOf (WAction.evals p :: WAction.posts (f p) ::
          workerRun f (some q) rest) =
          p :: evaluatedOf (workerRun f (some q) rest) := by
        simp [evaluatedOf]
      have hpost : postedOf (WAction.evals p :: WAction.posts (f p) ::
          workerRun f (some q) rest) =
          f p :: postedOf (workerRun f (some q) rest) := by
        simp [postedOf]
      rw [heval, hpost, List.dropLast_cons_of_ne_nil hne, List.map_cons, ih q]

/-- C5: the worker protocol.  (1) A worker holding the sentinel re-posts it
and terminates without evaluating.  (2) A worker that evaluated a task and
finds the queue empty terminates posting nothing.  (3) If the non-blocking
read yields the sentinel, the result is discarded and the sentinel handling
(re-post, terminate) follows.  (4) If it yields a normal task, the result
is posted first and the loop continues with that task in hand.  (5) Overall
the posted results are exactly the evaluations of all but the last
evaluated task. -/
theorem worker_protocol (f : α → β) (p q : α) (ts : List (Option α)) :
    (workerRun f none ts = [WAction.reposts]) ∧
    (workerRun f (some p) [] = [WAction.evals p]) ∧
    (workerRun f (some p) (none :: ts) =
      [WAction.evals p, WAction.reposts]) ∧
    (workerRun f (some p) (some q :: ts) =
      WAction.evals p :: WAction.posts (f p) :: workerRun f (some q) ts) ∧
    (postedOf (workerRun f (some p) ts) =
      ((evaluatedOf (workerRun f (some p) ts)).dropLast).map f) :=
  ⟨by simp [workerRun], rfl, by simp [workerRun], rfl,
    workerRun_posted_dropLast f ts p⟩

/-! ### The shutdown assertions of `parallel_montecarlo_shapley` (claim C8):
```
assert results_q.empty(), ...
assert tasks_q.get(timeout=0.1) is None, ...
```
modelled on queue snapshots; a failed assert (or the `get` timing out on an
empty queue) is a fatal error. -/

def shutdownCheck (resultsQ : List β) (tasksQ : List (Option α)) :
    Except String Unit :=
  if resultsQ.isEmpty = false then Except.error "pending results"
  else
    match tasksQ with
    | [] => Except.error "timeout: no sentinel in task queue"
    | none :: _ => Except.ok ()
    | some _ :: _ => Except.error "pending tasks"

/-- C8 counterexample: a task left behind the sentinel is not detected —
the check passes although the task queue does not contain exactly the
sentinel, so this violation does not surface as an assertion error. -/
theorem shutdown_check_misses_trailing_tasks :
    shutdownCheck ([] : List ℕ) [(none : Option ℕ), some 7] = Except.ok () ∧
    [(none : Option ℕ), some 7] ≠ [(none : Option ℕ)] :=
  ⟨rfl, by simp⟩

/-- C8 (amended): the check passes exactly when the result queue is empty
and the FIRST element of the task queue is the sentinel; those two
violations are fatal errors, but items behind the sentinel go unchecked. -/
theorem shutdown_check_characterization (resultsQ : List β)
    (tasksQ : List (Option α)) :
    shutdownCheck resultsQ tasksQ = Except.ok () ↔
      resultsQ = [] ∧ tasksQ.head? = some none := by
  unfold shutdownCheck
  cases resultsQ with
  | cons r rs => simp
  | nil =>
    cases tasksQ with
    | nil => simp
    | cons t rest =>
      cases t with
      | none => simp
      | some x => simp

/-- C8 witness for the amended statement: empty result queue, task queue
holding exactly the sentinel. -/
theorem shutdown_check_characterization_witness :
    shutdownCheck ([] : List ℕ) [(none : Option ℕ)] = Except.ok () :=
  (shutdown_check_characterization ([] : List ℕ) [(none : Option ℕ)]).mpr
    ⟨rfl, rfl⟩

/-! ### `solve_hvp` (`src/pydvl/influence/inversion.py`, claim C10).
`InversionMethod` is a `str`-valued enum, so the selector is modelled on the
raw string value; the three solvers are the external collaborators
`solve_linear`, `solve_batch_cg`, `solve_lissa`, abstracted as functions of
the bundled remaining arguments. -/

def solve_hvp (solve_linear solve_batch_cg solve_lissa : A → T)
    (inversion_method : String) (args : A) : Except String T :=
  if inversion_method = "direct" then Except.ok (solve_linear args)
  else if inversion_method = "cg" then Except.ok (solve_batch_cg args)
  else if inversion_method = "lissa" then Except.ok (solve_lissa args)
  else Except.error ("Unknown inversion method: " ++ inversion_method)

/-- C10: each enumerated inversion method dispatches to its solver and
returns that solver's result; any other value fails with an error naming
the invalid option, with no fallback. -/
theorem solve_hvp_dispatch (sl sc ss : A → T) (args : A) :
    (solve_hvp sl sc ss "direct" args = Except.ok (sl args)) ∧
    (solve_hvp sl sc ss "cg" args = Except.ok (sc args)) ∧
    (solve_hvp sl sc ss "lissa" args = Except.ok (ss args)) ∧
    ∀ s : String, s ≠ "direct" → s ≠ "cg" → s ≠ "lissa" →
      solve_hvp sl sc ss s args =
        Except.error ("Unknown inversion method: " ++ s) := by
  refine ⟨by simp [solve_hvp], by simp [solve_hvp], by simp [solve_hvp], ?_⟩
  intro s h1 h2 h3
  simp [solve_hvp, h1, h2, h3]

/-- C10 witness: the unknown method `"newton"` produces the descriptive
error naming it. -/
theorem solve_hvp_dispatch_witness :
    solve_hvp (fun n : ℕ => n + 1) (fun n => n + 2) (fun n => n + 3)
      "newton" 0 = Except.error ("Unknown inversion method: " ++ "newton") :=
  (solve_hvp_dispatch (fun n : ℕ => n + 1) (fun n => n + 2) (fun n => n + 3)
    0).2.2.2 "newton" (by decide) (by decide) (by decide)

end PyDVL
